import Mathlib

set_option synthInstance.maxSize 512

/-!
Verification of the string-processing and archive helpers in `zotify/utils.py`.

The Python functions are shallowly embedded over `List Char` / `String`:

* `regex_input_for_urls` — the six anchored URI/URL regexes are embedded as
  deterministic matchers.  The patterns contain no true nondeterminism: the
  optional scheme `(https?://)?`, the optional `(?:/intl-\w+)?` segment and the
  optional `(\?si=.+?)?` query are each forced by the literal text that follows
  them, so a first-match parser is exactly equivalent to the backtracking regex.
  Python's `$` (no `re.MULTILINE`) matches at the end of the string or just
  before one trailing newline; this is modelled by `endNL` / `stripNL`.
  Python's Unicode `\w` is modelled as ASCII `[0-9a-zA-Z_]`; no claim below
  depends on non-ASCII word characters inside the `intl-` segment.
* `fix_filename` — `re.sub` with the pattern
  `[/\\:|<>"?*\0-\x1f]|^(AUX|COM[1-9]|CON|LPT[1-9]|NUL|PRN)(?![^.])|^\s|[\s.]$`
  (IGNORECASE).  All alternatives replace their match by `_`.  Only the
  reserved-name alternative can match more than one character, and only at
  position 0, so the scan is: an optional reserved-name match at the start,
  then a character-by-character pass (`fixTail`).  `\s` is the Python Unicode
  whitespace set (`isSpaceU` below lists it exactly); IGNORECASE only affects
  the ASCII reserved-name letters, modelled with `Char.toUpper`.
* `fmt_seconds` — on a nonnegative float the Python arithmetic
  (`%`, `-`, `/ 60`, `math.floor`) computes exact integer values, so the
  function is modelled on the floored whole-second count as a `Nat`.
* the archive helpers — file contents are explicit values (`Option (List Char)`
  with `none` = absent file); `datetime.now()` is an explicit timestamp
  argument; `f.readlines()` is `splitLinesL`, `str.strip` is `stripWs`,
  `split('\t')[0]` is `firstField`.
-/

/-! ### Character classes -/

/-- The regex class `[0-9a-zA-Z]` used for the 22-character identifiers. -/
def isAlnumA (c : Char) : Bool :=
  (('0' ≤ c && c ≤ '9') || ('a' ≤ c && c ≤ 'z')) || ('A' ≤ c && c ≤ 'Z')

/-- The regex class `\w`, restricted to ASCII (`[0-9a-zA-Z_]`); see the header
comment. -/
def isWordA (c : Char) : Bool :=
  isAlnumA c || c = '_'

/-- Python's Unicode whitespace set: the characters matched by `\s` in a `str`
pattern and stripped by `str.strip()` (verified against CPython). -/
def isSpaceU (c : Char) : Bool :=
  ((c = ' ' || c = '\t' || c = '\n' || c = '\x0b' || c = '\x0c' || c = '\r') ||
   (c = '\x1c' || c = '\x1d' || c = '\x1e' || c = '\x1f') ||
   (c = '\x85' || c = '\xa0' || c = '\u1680')) ||
  (('\u2000' ≤ c && c ≤ '\u200a') ||
   c = '\u2028' || c = '\u2029' || c = '\u202f' || c = '\u205f' || c = '\u3000')

/-- The `fix_filename` character class `[/\\:|<>"?*\0-\x1f]`. -/
def forbiddenChar (c : Char) : Bool :=
  ((c = '/' || c = '\\' || c = ':' || c = '|' || c = '<') ||
   (c = '>' || c = '"' || c = '?' || c = '*')) ||
  c ≤ '\x1f'

/-! ### Generic matching helpers -/

/-- Match a literal pattern (first argument) at the front of the input and
return the remainder, or `none`. -/
def dropPre : List Char → List Char → Option (List Char)
  | [], s => some s
  | _ :: _, [] => none
  | p :: ps, c :: cs => if c = p then dropPre ps cs else none

/-- Python's `$` anchor (without `re.MULTILINE`): the remaining input is empty
or consists of exactly one trailing newline. -/
def endNL : List Char → Bool
  | [] => true
  | c :: [] => c = '\n'
  | _ :: _ :: _ => false

/-- Remove the single trailing newline tolerated by `$`, if present. -/
def stripNL (q : List Char) : List Char :=
  if q.getLast? = some '\n' then q.dropLast else q

/-! ### Literal fragments of the URL/URI patterns -/

/-- `"spotify:"` -/
def litSpotify : List Char :=
  's' :: 'p' :: 'o' :: 't' :: 'i' :: 'f' :: 'y' :: ':' :: []

/-- `"open.spotify.com"` -/
def litHost : List Char :=
  'o' :: 'p' :: 'e' :: 'n' :: '.' :: 's' :: 'p' :: 'o' :: 't' :: 'i' :: 'f' :: 'y' :: '.' :: 'c' :: 'o' :: 'm' :: []

/-- `"http://"` -/
def litHttp : List Char :=
  'h' :: 't' :: 't' :: 'p' :: ':' :: '/' :: '/' :: []

/-- `"https://"` -/
def litHttps : List Char :=
  'h' :: 't' :: 't' :: 'p' :: 's' :: ':' :: '/' :: '/' :: []

/-- `"/intl-"` -/
def litIntl : List Char :=
  '/' :: 'i' :: 'n' :: 't' :: 'l' :: '-' :: []

/-- `"?si="` -/
def litQsi : List Char :=
  '?' :: 's' :: 'i' :: '=' :: []

/-- `"track"` -/
def tyTrack : List Char := 't' :: 'r' :: 'a' :: 'c' :: 'k' :: []

/-- `"album"` -/
def tyAlbum : List Char := 'a' :: 'l' :: 'b' :: 'u' :: 'm' :: []

/-- `"playlist"` -/
def tyPlaylist : List Char := 'p' :: 'l' :: 'a' :: 'y' :: 'l' :: 'i' :: 's' :: 't' :: []

/-- `"episode"` -/
def tyEpisode : List Char := 'e' :: 'p' :: 'i' :: 's' :: 'o' :: 'd' :: 'e' :: []

/-- `"show"` -/
def tyShow : List Char := 's' :: 'h' :: 'o' :: 'w' :: []

/-- `"artist"` -/
def tyArtist : List Char := 'a' :: 'r' :: 't' :: 'i' :: 's' :: 't' :: []

/-- The six resource-type tokens, in the order of the returned tuple. -/
def slotTypes : List (List Char) :=
  tyTrack :: tyAlbum :: tyPlaylist :: tyEpisode :: tyShow :: tyArtist :: []

/-! ### The URI and URL matchers -/

/-- Match `(?P<ID>[0-9a-zA-Z]{22})` greedily at the front: the first 22
characters must all be alphanumeric; returns `(id, remainder)`. -/
def take22 (r : List Char) : Option (List Char × List Char) :=
  if (r.take 22).length = 22 && (r.take 22).all isAlnumA then
    some (r.take 22, r.drop 22)
  else none

/-- The tail `(\?si=.+?)?$` of the URL patterns: either `$` directly, or
`?si=` followed by at least one non-newline character, then `$`.  (`.` does
not match a newline; `$` may consume one trailing newline.) -/
def queryOk (q : List Char) : Bool :=
  (stripNL q).isEmpty ||
    (match dropPre litQsi (stripNL q) with
     | some content => !content.isEmpty && content.all (fun c => c != '\n')
     | none => false)

/-- `^spotify:<ty>:(?P<ID>[0-9a-zA-Z]{22})$` -/
def uriSearch (ty s : List Char) : Option (List Char) :=
  match dropPre (litSpotify ++ ty ++ (':' :: [])) s with
  | none => none
  | some r =>
    match take22 r with
    | none => none
    | some (core, rest) => if endNL rest then some core else none

/-- `/(ty)/(?P<ID>[0-9a-zA-Z]{22})(\?si=.+?)?$` — the part of a URL pattern
after the host and the optional `intl` segment. -/
def tyIdQ (ty s : List Char) : Option (List Char) :=
  match dropPre ('/' :: (ty ++ ('/' :: []))) s with
  | none => none
  | some r =>
    match take22 r with
    | none => none
    | some (core, rest) => if queryOk rest then some core else none

/-- `(?:/intl-\w+)?/(ty)/...` — the part after the host.  The two alternatives
(with and without the `intl` segment) are mutually exclusive for the six
resource types, so trying them in either order equals the regex. -/
def afterHost (ty r : List Char) : Option (List Char) :=
  match tyIdQ ty r with
  | some v => some v
  | none =>
    match dropPre litIntl r with
    | none => none
    | some r2 =>
      if (r2.takeWhile isWordA).isEmpty then none
      else tyIdQ ty (r2.dropWhile isWordA)

/-- `(https?://)?` — none of the three alternatives is a prefix of another
followed by matchable text (the host starts with `o`), so stripping greedily
equals the regex. -/
def stripScheme (s : List Char) : List Char :=
  match dropPre litHttps s with
  | some r => r
  | none =>
    match dropPre litHttp s with
    | some r => r
    | none => s

/-- `^(https?://)?open\.spotify\.com(?:/intl-\w+)?/(ty)/([0-9a-zA-Z]{22})(\?si=.+?)?$` -/
def urlSearch (ty s : List Char) : Option (List Char) :=
  match dropPre litHost (stripScheme s) with
  | none => none
  | some r => afterHost ty r

/-- One slot of the result: the URI match is preferred when both exist (as in
the Python conditional), though both capture the same text. -/
def slotSearch (ty s : List Char) : Option (List Char) :=
  match uriSearch ty s with
  | some v => some v
  | none => urlSearch ty s

/-- The 6-tuple `(track, album, playlist, episode, show, artist)` returned by
`regex_input_for_urls`, on `List Char`. -/
def regexInputL (s : List Char) :
    Option (List Char) × Option (List Char) × Option (List Char) ×
    Option (List Char) × Option (List Char) × Option (List Char) :=
  (slotSearch tyTrack s, slotSearch tyAlbum s, slotSearch tyPlaylist s,
   slotSearch tyEpisode s, slotSearch tyShow s, slotSearch tyArtist s)

/-- `regex_input_for_urls` from `zotify/utils.py`. -/
def regex_input_for_urls (s : String) :
    Option (List Char) × Option (List Char) × Option (List Char) ×
    Option (List Char) × Option (List Char) × Option (List Char) :=
  regexInputL s.data

/-- The all-`None` tuple (no match). -/
def noneTuple :
    Option (List Char) × Option (List Char) × Option (List Char) ×
    Option (List Char) × Option (List Char) × Option (List Char) :=
  (none, none, none, none, none, none)

/-- The tuple whose slot for type `ty` holds `id` and whose other slots are
empty. -/
def expectedTuple (ty id : List Char) :
    Option (List Char) × Option (List Char) × Option (List Char) ×
    Option (List Char) × Option (List Char) × Option (List Char) :=
  ((if ty = tyTrack then some id else none),
   (if ty = tyAlbum then some id else none),
   (if ty = tyPlaylist then some id else none),
   (if ty = tyEpisode then some id else none),
   (if ty = tyShow then some id else none),
   (if ty = tyArtist then some id else none))

/-- Number of populated slots in a result tuple. -/
def someCount
    (t : Option (List Char) × Option (List Char) × Option (List Char) ×
         Option (List Char) × Option (List Char) × Option (List Char)) : Nat :=
  t.1.isSome.toNat + t.2.1.isSome.toNat + t.2.2.1.isSome.toNat +
  t.2.2.2.1.isSome.toNat + t.2.2.2.2.1.isSome.toNat + t.2.2.2.2.2.isSome.toNat

-- Concrete checks of the matchers against CPython's `re` on the same inputs.
example :
    regex_input_for_urls ("spotify:track:aaaaaaaaaaaaaaaaaaaaaa") =
      (some (List.replicate 22 'a'), none, none, none, none, none) := by decide

example :
    regex_input_for_urls ("https://open.spotify.com/intl-pt/album/bbbbbbbbbbbbbbbbbbbbbb?si=xyz") =
      (none, some (List.replicate 22 'b'), none, none, none, none) := by decide

example :
    regex_input_for_urls ("open.spotify.com/intl-/track/aaaaaaaaaaaaaaaaaaaaaa") = noneTuple := by
  decide

example :
    regex_input_for_urls ("open.spotify.com/track/aaaaaaaaaaaaaaaaaaaaaa?si=") = noneTuple := by
  decide

example :
    regex_input_for_urls ("spotify:show:abcdefghijABCDEFGHIJ01") =
      (none, none, none, none, some ("abcdefghijABCDEFGHIJ01").data, none) := by decide

example : regex_input_for_urls ("spotify:track:tooShort") = noneTuple := by decide

/-! ### fix_filename -/

/-- The negative lookahead `(?![^.])` after a reserved name: succeeds when the
rest is empty or starts with `.` (note `[^.]` matches a newline). -/
def lookNoDot : List Char → Bool
  | [] => true
  | c :: _ => c = '.'

/-- The alternative `^(AUX|COM[1-9]|CON|LPT[1-9]|NUL|PRN)(?![^.])` with
IGNORECASE, tried at position 0 only.  No reserved name is a prefix of
another, so at most one alternative can match and no backtracking into the
group is possible.  IGNORECASE on these ASCII names is `Char.toUpper`
comparison (no other Unicode character case-folds onto their letters).
Returns the rest of the input after the matched name. -/
def matchRes : List Char → Option (List Char)
  | a :: b :: c :: rest =>
    if (a.toUpper = 'A' ∧ b.toUpper = 'U' ∧ c.toUpper = 'X') ∨
        (a.toUpper = 'C' ∧ b.toUpper = 'O' ∧ c.toUpper = 'N') ∨
        (a.toUpper = 'N' ∧ b.toUpper = 'U' ∧ c.toUpper = 'L') ∨
        (a.toUpper = 'P' ∧ b.toUpper = 'R' ∧ c.toUpper = 'N') then
      if lookNoDot rest then some rest else none
    else if (a.toUpper = 'C' ∧ b.toUpper = 'O' ∧ c.toUpper = 'M') ∨
        (a.toUpper = 'L' ∧ b.toUpper = 'P' ∧ c.toUpper = 'T') then
      match rest with
      | [] => none
      | d :: rest2 =>
        if '1' ≤ d ∧ d ≤ '9' then
          if lookNoDot rest2 then some rest2 else none
        else none
    else none
  | _ => none

/-- The per-character scan of `re.sub` at positions ≥ 1: each character is
replaced by `_` iff it is in the forbidden class, or it is whitespace-or-period
and `$` matches right after it (`endNL`).  (`^`-anchored alternatives cannot
match here.) -/
def fixTail : List Char → List Char
  | [] => []
  | c :: cs =>
    if forbiddenChar c then '_' :: fixTail cs
    else if (isSpaceU c || c = '.') && endNL cs then '_' :: fixTail cs
    else c :: fixTail cs

/-- `fix_filename` on `List Char`: at position 0 the alternatives are tried in
the regex order (character class, reserved name, `^\s`, `[\s.]$`); the
remainder is the per-character scan `fixTail`. -/
def fixFilenameL : List Char → List Char
  | [] => []
  | c :: cs =>
    if forbiddenChar c then '_' :: fixTail cs
    else
      match matchRes (c :: cs) with
      | some r => '_' :: fixTail r
      | none =>
        if isSpaceU c then '_' :: fixTail cs
        else if (isSpaceU c || c = '.') && endNL cs then '_' :: fixTail cs
        else c :: fixTail cs

/-- `fix_filename` from `zotify/utils.py`. -/
def fix_filename (s : String) : String :=
  String.mk (fixFilenameL s.data)

-- The doctests of `fix_filename`, plus CPython cross-checks.
example : fix_filename ("  COM1  ") = "_ COM1 _" := by decide
example : fix_filename ("COM10") = "COM10" := by decide
example : fix_filename ("COM1,") = "COM1," := by decide
example : fix_filename ("COM1.txt") = "_.txt" := by decide
example : fix_filename ("\x00") = "_" ∧ fix_filename ("\x1f") = "_" := by decide
example : fix_filename ("aux") = "_" := by decide
example : fix_filename ("a.\n") = "a__" := by decide
example : fix_filename ("  a") = "_ a" := by decide
example : fix_filename ("a..") = "a._" := by decide
example : fix_filename ("AUX.AUX") = "_.AUX" := by decide
example : fix_filename ("com1.") = "__" := by decide

/-! ### fmt_seconds -/

/-- Python `str.zfill`: pad with leading zeros to the given total width (no
sign handling needed: the inputs here never start with a sign). -/
def zfill (s : String) (w : Nat) : String :=
  if w ≤ s.length then s
  else String.mk (List.replicate (w - s.length) '0' ++ s.data)

/-- `fmt_seconds` from `zotify/utils.py`, on the floored whole-second count.
For a nonnegative float within exact integer range, the Python sequence
`s = val %60; val -= s; val /= 60; m = val %60; val -= m; val /= 60;
h = floor(val)` computes exactly `n % 60`, `n / 60 % 60`, `n / 3600`. -/
def fmt_seconds (n : Nat) : String :=
  let s := n % 60
  let m := n / 60 % 60
  let h := n / 3600
  if h = 0 ∧ m = 0 ∧ s = 0 then "0s"
  else if h = 0 ∧ m = 0 then zfill (Nat.repr s ++ "s") 2
  else if h = 0 then zfill (Nat.repr m) 2 ++ ":" ++ zfill (Nat.repr s) 2
  else zfill (Nat.repr h) 2 ++ ":" ++ zfill (Nat.repr m) 2 ++ ":" ++ zfill (Nat.repr s) 2

example : fmt_seconds 0 = "0s" := by decide
example : fmt_seconds 5 = "5s" := by decide
example : fmt_seconds 65 = "01:05" := by decide
example : fmt_seconds 3661 = "01:01:01" := by decide
example : fmt_seconds 36061 = "10:01:01" := by decide

/-! ### The download archive -/

/-- One archive record as written by both archive writers:
`id \t timestamp \t author \t title \t filename \n`. -/
def archiveLine (song_id now author_name song_name filename : List Char) : List Char :=
  song_id ++ '\t' :: (now ++ '\t' :: (author_name ++ '\t' :: (song_name ++ '\t' :: (filename ++ ('\n' :: [])))))

/-- `add_to_archive`: appends one record; when the file does not exist the
`'w'` branch creates it with the same single record, so both branches are the
previous content (empty if absent) plus the new line.  `datetime.now()` is the
explicit `now` argument. -/
def add_to_archive (archive : Option (List Char)) (song_id filename author_name song_name now : List Char) : List Char :=
  archive.getD [] ++ archiveLine song_id now author_name song_name filename

/-- Python `f.readlines()`: split after every newline, keeping the newline;
a final fragment without a newline is kept, and an empty file gives `[]`. -/
def splitLinesL : List Char → List (List Char)
  | [] => []
  | c :: cs =>
    if c = '\n' then ('\n' :: []) :: splitLinesL cs
    else
      match splitLinesL cs with
      | [] => (c :: []) :: []
      | l :: ls => (c :: l) :: ls

/-- Python `str.strip()`: remove leading and trailing `isSpaceU` characters. -/
def stripWs (l : List Char) : List Char :=
  ((l.dropWhile isSpaceU).reverse.dropWhile isSpaceU).reverse

/-- Python `line.split('\t')[0]`. -/
def firstField (l : List Char) : List Char :=
  l.takeWhile (fun c => c != '\t')

/-- `get_previously_downloaded`: `none` (missing file) gives `[]`; otherwise
each line is stripped and its first tab-separated field taken. -/
def get_previously_downloaded (archive : Option (List Char)) : List (List Char) :=
  match archive with
  | none => []
  | some c => (splitLinesL c).map (fun l => firstField (stripWs l))

/-- State of one download directory: whether the directory exists and the
content of its `.song_ids` manifest (`none` = no such file). -/
structure DirState where
  dirExists : Bool
  songIds : Option (List Char)
deriving DecidableEq

/-- `create_download_directory`: always creates the directory; when
directory archiving is disabled it returns before touching `.song_ids`;
otherwise it creates an empty manifest if none exists. -/
def create_download_directory (disableArchives : Bool) (st : DirState) : DirState :=
  if disableArchives then { dirExists := true, songIds := st.songIds }
  else
    match st.songIds with
    | some c => { dirExists := true, songIds := some c }
    | none => { dirExists := true, songIds := some [] }

/-- `add_to_directory_song_ids`: no-op when directory archiving is disabled;
otherwise appends one record (mode `'a'` creates a missing file). -/
def add_to_directory_song_ids (disableArchives : Bool) (file : Option (List Char)) (song_id filename author_name song_name now : List Char) : Option (List Char) :=
  if disableArchives then file
  else some (file.getD [] ++ archiveLine song_id now author_name song_name filename)

/-- `get_directory_song_ids`: reads the manifest only when it exists and
directory archiving is enabled; otherwise `[]`. -/
def get_directory_song_ids (disableArchives : Bool) (file : Option (List Char)) : List (List Char) :=
  match file with
  | none => []
  | some c =>
    if disableArchives then []
    else (splitLinesL c).map (fun l => firstField (stripWs l))

example :
    get_previously_downloaded (some (("id1\t2024\tauth\ttitle\tfile\nid2\tx\ty\tz\tw\n").data)) =
      (("id1").data :: ("id2").data :: []) := by decide

/-! ### List-matching lemmas -/

theorem dropPre_eq_some : ∀ {p s r : List Char}, dropPre p s = some r ↔ s = p ++ r := by
  intro p
  induction p with
  | nil => intro s r; simp [dropPre]
  | cons x ps ih =>
    intro s r
    cases s with
    | nil => simp [dropPre]
    | cons c cs =>
      simp only [dropPre]
      by_cases hc : c = x
      · rw [if_pos hc]; simp [hc, ih]
      · rw [if_neg hc]; simp [hc]

theorem dropPre_self (p r : List Char) : dropPre p (p ++ r) = some r :=
  dropPre_eq_some.mpr rfl

theorem takeWhile_of_all {p : Char → Bool} :
    ∀ {a : List Char}, (∀ y ∈ a, p y = true) → a.takeWhile p = a := by
  intro a
  induction a with
  | nil => intro _; rfl
  | cons x xs ih =>
    intro h
    simp only [List.takeWhile]
    rw [h x (by simp)]
    simp [ih (fun y hy => h y (by simp [hy]))]

theorem takeWhile_append_stop {p : Char → Bool} {x : Char} {b : List Char} :
    ∀ {a : List Char}, (∀ y ∈ a, p y = true) → p x = false →
      (a ++ x :: b).takeWhile p = a := by
  intro a
  induction a with
  | nil => intro _ hx; simp [List.takeWhile, hx]
  | cons z zs ih =>
    intro h hx
    simp only [List.cons_append, List.takeWhile]
    rw [h z (by simp)]
    simp [ih (fun y hy => h y (by simp [hy])) hx]

/-! ### Type-token extraction from matched inputs

For the exclusivity claim we show that a successful match determines the
resource-type token as a function of the input alone. -/

/-- The text between `spotify:` and the next `:`, when the input starts with
`spotify:`. -/
def uriType (s : List Char) : Option (List Char) :=
  match dropPre litSpotify s with
  | none => none
  | some r => some (r.takeWhile (fun c => c != ':'))

/-- The path segment after a leading `/`. -/
def headSlash : List Char → Option (List Char)
  | '/' :: rest => some (rest.takeWhile (fun c => c != '/'))
  | _ => none

/-- The path segment in type position of a URL-shaped input (after the host
and the optional `intl-` segment). -/
def urlType (s : List Char) : Option (List Char) :=
  match dropPre litHost (stripScheme s) with
  | none => none
  | some r =>
    match dropPre litIntl r with
    | some r2 =>
      if (r2.takeWhile isWordA).isEmpty then headSlash r
      else headSlash (r2.dropWhile isWordA)
    | none => headSlash r

theorem uriSearch_shape {ty s v : List Char} (h : uriSearch ty s = some v) :
    ∃ r, s = litSpotify ++ (ty ++ ':' :: r) := by
  unfold uriSearch at h
  cases hd : dropPre (litSpotify ++ ty ++ (':' :: [])) s with
  | none => rw [hd] at h; exact absurd h (by simp)
  | some r =>
    refine ⟨r, ?_⟩
    have := dropPre_eq_some.mp hd
    simpa [List.append_assoc] using this

theorem uriType_of_uriSearch {ty s v : List Char}
    (hc : ty.all (fun c => c != ':') = true) (h : uriSearch ty s = some v) :
    uriType s = some ty := by
  obtain ⟨r, rfl⟩ := uriSearch_shape h
  have h2 : (ty ++ ':' :: r).takeWhile (fun c => c != ':') = ty :=
    takeWhile_append_stop (fun y hy => (List.all_eq_true.mp hc) y hy) (by decide)
  unfold uriType
  simp only [dropPre_self, h2]

theorem tyIdQ_shape {ty s v : List Char} (h : tyIdQ ty s = some v) :
    ∃ u, s = '/' :: (ty ++ '/' :: u) := by
  unfold tyIdQ at h
  cases hd : dropPre ('/' :: (ty ++ ('/' :: []))) s with
  | none => rw [hd] at h; exact absurd h (by simp)
  | some r =>
    refine ⟨r, ?_⟩
    have := dropPre_eq_some.mp hd
    simpa [List.append_assoc] using this

theorem headSlash_ty {ty u : List Char} (hty : ty.all (fun c => c != '/') = true) :
    headSlash ('/' :: (ty ++ '/' :: u)) = some ty := by
  have h2 : (ty ++ '/' :: u).takeWhile (fun c => c != '/') = ty :=
    takeWhile_append_stop (fun y hy => (List.all_eq_true.mp hty) y hy) (by decide)
  show some ((ty ++ '/' :: u).takeWhile (fun c => c != '/')) = some ty
  rw [h2]

theorem dropPre_intl_none {ty : List Char} (h0 : ty ≠ [])
    (hi : ty.head? ≠ some 'i') (u : List Char) :
    dropPre litIntl ('/' :: (ty ++ '/' :: u)) = none := by
  cases ty with
  | nil => exact absurd rfl h0
  | cons c cs =>
    have hc : c ≠ 'i' := by
      intro hc; exact hi (by simp [hc])
    simp [litIntl, dropPre, hc]

theorem urlType_of_urlSearch {ty s v : List Char} (h0 : ty ≠ [])
    (hi : ty.head? ≠ some 'i') (hslash : ty.all (fun c => c != '/') = true)
    (h : urlSearch ty s = some v) : urlType s = some ty := by
  unfold urlSearch at h
  cases hh : dropPre litHost (stripScheme s) with
  | none => simp only [hh] at h; exact Option.noConfusion h
  | some r =>
    simp only [hh] at h
    unfold urlType
    unfold afterHost at h
    cases ht : tyIdQ ty r with
    | some w =>
      obtain ⟨u, rfl⟩ := tyIdQ_shape ht
      simp only [hh, dropPre_intl_none h0 hi]
      exact headSlash_ty hslash
    | none =>
      simp only [ht] at h
      cases hil : dropPre litIntl r with
      | none => simp only [hil] at h; exact Option.noConfusion h
      | some r2 =>
        simp only [hil] at h
        by_cases hw : (r2.takeWhile isWordA).isEmpty
        · rw [if_pos hw] at h; exact absurd h (by simp)
        · rw [if_neg hw] at h
          obtain ⟨u, hu⟩ := tyIdQ_shape h
          simp only [hh, hil, if_neg hw, hu]
          exact headSlash_ty hslash

theorem head_of_uriSearch {ty s v : List Char} (h : uriSearch ty s = some v) :
    s.head? = some 's' := by
  obtain ⟨r, rfl⟩ := uriSearch_shape h
  rfl

theorem stripScheme_cases (s : List Char) :
    (∃ t, s = litHttps ++ t ∧ stripScheme s = t) ∨
    (∃ t, s = litHttp ++ t ∧ stripScheme s = t) ∨
    stripScheme s = s := by
  unfold stripScheme
  cases h1 : dropPre litHttps s with
  | some t => exact Or.inl ⟨t, dropPre_eq_some.mp h1, rfl⟩
  | none =>
    cases h2 : dropPre litHttp s with
    | some t => exact Or.inr (Or.inl ⟨t, dropPre_eq_some.mp h2, rfl⟩)
    | none => exact Or.inr (Or.inr rfl)

theorem head_of_urlSearch {ty s v : List Char} (h : urlSearch ty s = some v) :
    s.head? = some 'o' ∨ s.head? = some 'h' := by
  unfold urlSearch at h
  cases hh : dropPre litHost (stripScheme s) with
  | none => rw [hh] at h; exact absurd h (by simp)
  | some r =>
    rcases stripScheme_cases s with ⟨t, rfl, _⟩ | ⟨t, rfl, _⟩ | hs
    · exact Or.inr rfl
    · exact Or.inr rfl
    · rw [hs] at hh
      rw [dropPre_eq_some.mp hh]
      exact Or.inl rfl

theorem slot_unique {ty1 ty2 s v1 v2 : List Char}
    (h01 : ty1 ≠ []) (hi1 : ty1.head? ≠ some 'i')
    (hc1 : ty1.all (fun c => c != ':') = true) (hs1 : ty1.all (fun c => c != '/') = true)
    (h02 : ty2 ≠ []) (hi2 : ty2.head? ≠ some 'i')
    (hc2 : ty2.all (fun c => c != ':') = true) (hs2 : ty2.all (fun c => c != '/') = true)
    (m1 : slotSearch ty1 s = some v1) (m2 : slotSearch ty2 s = some v2) :
    ty1 = ty2 := by
  unfold slotSearch at m1 m2
  cases e1 : uriSearch ty1 s with
  | some w1 =>
    cases e2 : uriSearch ty2 s with
    | some w2 =>
      have t1 := uriType_of_uriSearch hc1 e1
      have t2 := uriType_of_uriSearch hc2 e2
      rw [t1] at t2
      exact Option.some_injective _ t2
    | none =>
      rw [e2] at m2
      have hu := head_of_urlSearch m2
      have hs := head_of_uriSearch e1
      rw [hs] at hu
      rcases hu with hu | hu <;> exact absurd hu (by decide)
  | none =>
    rw [e1] at m1
    cases e2 : uriSearch ty2 s with
    | some w2 =>
      have hu := head_of_urlSearch m1
      have hs := head_of_uriSearch e2
      rw [hs] at hu
      rcases hu with hu | hu <;> exact absurd hu (by decide)
    | none =>
      rw [e2] at m2
      have t1 := urlType_of_urlSearch h01 hi1 hs1 m1
      have t2 := urlType_of_urlSearch h02 hi2 hs2 m2
      rw [t1] at t2
      exact Option.some_injective _ t2

theorem slotTypes_good {ty : List Char} (h : ty ∈ slotTypes) :
    ty ≠ [] ∧ ty.head? ≠ some 'i' ∧ ty.all (fun c => c != ':') = true ∧
      ty.all (fun c => c != '/') = true := by
  simp only [slotTypes, List.mem_cons, List.not_mem_nil, or_false] at h
  rcases h with rfl | rfl | rfl | rfl | rfl | rfl <;> exact by decide

theorem sixBoolBound : ∀ b1 b2 b3 b4 b5 b6 : Bool,
    (b1 = true → b2 = true → False) → (b1 = true → b3 = true → False) →
    (b1 = true → b4 = true → False) → (b1 = true → b5 = true → False) →
    (b1 = true → b6 = true → False) → (b2 = true → b3 = true → False) →
    (b2 = true → b4 = true → False) → (b2 = true → b5 = true → False) →
    (b2 = true → b6 = true → False) → (b3 = true → b4 = true → False) →
    (b3 = true → b5 = true → False) → (b3 = true → b6 = true → False) →
    (b4 = true → b5 = true → False) → (b4 = true → b6 = true → False) →
    (b5 = true → b6 = true → False) →
    b1.toNat + b2.toNat + b3.toNat + b4.toNat + b5.toNat + b6.toNat ≤ 1 := by
  intro b1 b2 b3 b4 b5 b6 h12 h13 h14 h15 h16 h23 h24 h25 h26 h34 h35 h36 h45 h46 h56
  cases b1 <;> cases b2 <;> cases b3 <;> cases b4 <;> cases b5 <;> cases b6 <;> simp_all

/-- C2: for every input string, the 6-tuple returned by `regex_input_for_urls`
has at most one populated slot: no input can match two different resource
types at once. -/
theorem claim_C2_at_most_one_slot (s : String) : someCount (regex_input_for_urls s) ≤ 1 := by
  have pair : ∀ ty1 ty2 : List Char, ty1 ∈ slotTypes → ty2 ∈ slotTypes → ty1 ≠ ty2 →
      (slotSearch ty1 s.data).isSome = true → (slotSearch ty2 s.data).isSome = true → False := by
    intro ty1 ty2 ht1 ht2 hne p1 p2
    obtain ⟨v1, hv1⟩ := Option.isSome_iff_exists.mp p1
    obtain ⟨v2, hv2⟩ := Option.isSome_iff_exists.mp p2
    obtain ⟨a1, b1, c1, d1⟩ := slotTypes_good ht1
    obtain ⟨a2, b2, c2, d2⟩ := slotTypes_good ht2
    exact hne (slot_unique a1 b1 c1 d1 a2 b2 c2 d2 hv1 hv2)
  have hrw : someCount (regex_input_for_urls s) =
      (slotSearch tyTrack s.data).isSome.toNat + (slotSearch tyAlbum s.data).isSome.toNat +
      (slotSearch tyPlaylist s.data).isSome.toNat + (slotSearch tyEpisode s.data).isSome.toNat +
      (slotSearch tyShow s.data).isSome.toNat + (slotSearch tyArtist s.data).isSome.toNat := rfl
  rw [hrw]
  exact sixBoolBound _ _ _ _ _ _
    (pair tyTrack tyAlbum (by decide) (by decide) (by decide))
    (pair tyTrack tyPlaylist (by decide) (by decide) (by decide))
    (pair tyTrack tyEpisode (by decide) (by decide) (by decide))
    (pair tyTrack tyShow (by decide) (by decide) (by decide))
    (pair tyTrack tyArtist (by decide) (by decide) (by decide))
    (pair tyAlbum tyPlaylist (by decide) (by decide) (by decide))
    (pair tyAlbum tyEpisode (by decide) (by decide) (by decide))
    (pair tyAlbum tyShow (by decide) (by decide) (by decide))
    (pair tyAlbum tyArtist (by decide) (by decide) (by decide))
    (pair tyPlaylist tyEpisode (by decide) (by decide) (by decide))
    (pair tyPlaylist tyShow (by decide) (by decide) (by decide))
    (pair tyPlaylist tyArtist (by decide) (by decide) (by decide))
    (pair tyEpisode tyShow (by decide) (by decide) (by decide))
    (pair tyEpisode tyArtist (by decide) (by decide) (by decide))
    (pair tyShow tyArtist (by decide) (by decide) (by decide))

/-! ### Computing successful URL matches -/

theorem dropPre_cancel (a b c : List Char) : dropPre (a ++ b) (a ++ c) = dropPre b c := by
  induction a with
  | nil => rfl
  | cons x xs ih => simp [dropPre, ih]

theorem take22_append {id q : List Char} (hlen : id.length = 22)
    (hal : id.all isAlnumA = true) : take22 (id ++ q) = some (id, q) := by
  unfold take22
  rw [List.take_left' hlen, List.drop_left' hlen]
  simp [hlen, hal]

theorem queryOk_qsi {q : List Char} (h0 : q ≠ []) (hn : q.all (fun c => c != '\n') = true) :
    queryOk (litQsi ++ q) = true := by
  rcases List.eq_nil_or_concat q with rfl | ⟨xs, x, rfl⟩
  · exact absurd rfl h0
  · simp only [List.concat_eq_append] at hn ⊢
    have hx : x ≠ '\n' := by
      have := List.all_eq_true.mp hn x (by simp)
      simpa using this
    unfold queryOk stripNL
    have hlast : (litQsi ++ (xs ++ (x :: []))).getLast? = some x := by
      rw [← List.append_assoc]; simp
    rw [hlast, if_neg (by simp [hx])]
    simp only [dropPre_self]
    simp [hn]

theorem afterHost_hit {ty id q : List Char}
    (hlen : id.length = 22) (hal : id.all isAlnumA = true) (hq : queryOk q = true) :
    afterHost ty ('/' :: (ty ++ '/' :: (id ++ q))) = some id := by
  have hdrop : dropPre ('/' :: (ty ++ ('/' :: []))) ('/' :: (ty ++ '/' :: (id ++ q))) =
      some (id ++ q) := by
    have := dropPre_self ('/' :: (ty ++ ('/' :: []))) (id ++ q)
    simpa [List.append_assoc] using this
  have h1 : tyIdQ ty ('/' :: (ty ++ '/' :: (id ++ q))) = some id := by
    unfold tyIdQ
    simp only [hdrop, take22_append hlen hal, hq, if_true]
  unfold afterHost
  simp only [h1]

theorem stripScheme_host (x : List Char) : stripScheme (litHost ++ x) = litHost ++ x := rfl

theorem stripScheme_http (x : List Char) : stripScheme (litHttp ++ x) = x := rfl

theorem stripScheme_https (x : List Char) : stripScheme (litHttps ++ x) = x := rfl

theorem slotSearch_url_hit {sch ty id q : List Char}
    (hsch : sch = [] ∨ sch = litHttp ∨ sch = litHttps)
    (hlen : id.length = 22) (hal : id.all isAlnumA = true) (hq : queryOk q = true) :
    slotSearch ty (sch ++ (litHost ++ '/' :: (ty ++ '/' :: (id ++ q)))) = some id := by
  have hurl : urlSearch ty (sch ++ (litHost ++ '/' :: (ty ++ '/' :: (id ++ q)))) = some id := by
    unfold urlSearch
    rcases hsch with rfl | rfl | rfl
    · rw [List.nil_append]
      simp only [stripScheme_host, dropPre_self]
      exact afterHost_hit hlen hal hq
    · simp only [stripScheme_http, dropPre_self]
      exact afterHost_hit hlen hal hq
    · simp only [stripScheme_https, dropPre_self]
      exact afterHost_hit hlen hal hq
  have huri : uriSearch ty (sch ++ (litHost ++ '/' :: (ty ++ '/' :: (id ++ q)))) = none := by
    rcases hsch with rfl | rfl | rfl <;> rfl
  unfold slotSearch
  simp only [huri, hurl]

/-- A single populated slot determines the whole tuple: the matching type's
slot holds the id and, by exclusivity, every other slot is `none`. -/
theorem single_slot {ty id s : List Char} (hty : ty ∈ slotTypes)
    (hs : slotSearch ty s = some id) : regexInputL s = expectedTuple ty id := by
  have others : ∀ ty2, ty2 ∈ slotTypes → ty2 ≠ ty → slotSearch ty2 s = none := by
    intro ty2 h2 hne
    cases e : slotSearch ty2 s with
    | none => rfl
    | some w =>
      obtain ⟨a1, b1, c1, d1⟩ := slotTypes_good h2
      obtain ⟨a2, b2, c2, d2⟩ := slotTypes_good hty
      exact absurd (slot_unique a1 b1 c1 d1 a2 b2 c2 d2 e hs) hne
  simp only [slotTypes, List.mem_cons, List.not_mem_nil, or_false] at hty
  rcases hty with rfl | rfl | rfl | rfl | rfl | rfl
  · show (slotSearch tyTrack s, slotSearch tyAlbum s, slotSearch tyPlaylist s,
        slotSearch tyEpisode s, slotSearch tyShow s, slotSearch tyArtist s) =
      (some id, none, none, none, none, none)
    rw [hs, others tyAlbum (by decide) (by decide), others tyPlaylist (by decide) (by decide),
      others tyEpisode (by decide) (by decide), others tyShow (by decide) (by decide),
      others tyArtist (by decide) (by decide)]
  · show (slotSearch tyTrack s, slotSearch tyAlbum s, slotSearch tyPlaylist s,
        slotSearch tyEpisode s, slotSearch tyShow s, slotSearch tyArtist s) =
      (none, some id, none, none, none, none)
    rw [hs, others tyTrack (by decide) (by decide), others tyPlaylist (by decide) (by decide),
      others tyEpisode (by decide) (by decide), others tyShow (by decide) (by decide),
      others tyArtist (by decide) (by decide)]
  · show (slotSearch tyTrack s, slotSearch tyAlbum s, slotSearch tyPlaylist s,
        slotSearch tyEpisode s, slotSearch tyShow s, slotSearch tyArtist s) =
      (none, none, some id, none, none, none)
    rw [hs, others tyTrack (by decide) (by decide), others tyAlbum (by decide) (by decide),
      others tyEpisode (by decide) (by decide), others tyShow (by decide) (by decide),
      others tyArtist (by decide) (by decide)]
  · show (slotSearch tyTrack s, slotSearch tyAlbum s, slotSearch tyPlaylist s,
        slotSearch tyEpisode s, slotSearch tyShow s, slotSearch tyArtist s) =
      (none, none, none, some id, none, none)
    rw [hs, others tyTrack (by decide) (by decide), others tyAlbum (by decide) (by decide),
      others tyPlaylist (by decide) (by decide), others tyShow (by decide) (by decide),
      others tyArtist (by decide) (by decide)]
  · show (slotSearch tyTrack s, slotSearch tyAlbum s, slotSearch tyPlaylist s,
        slotSearch tyEpisode s, slotSearch tyShow s, slotSearch tyArtist s) =
      (none, none, none, none, some id, none)
    rw [hs, others tyTrack (by decide) (by decide), others tyAlbum (by decide) (by decide),
      others tyPlaylist (by decide) (by decide), others tyEpisode (by decide) (by decide),
      others tyArtist (by decide) (by decide)]
  · show (slotSearch tyTrack s, slotSearch tyAlbum s, slotSearch tyPlaylist s,
        slotSearch tyEpisode s, slotSearch tyShow s, slotSearch tyArtist s) =
      (none, none, none, none, none, some id)
    rw [hs, others tyTrack (by decide) (by decide), others tyAlbum (by decide) (by decide),
      others tyPlaylist (by decide) (by decide), others tyEpisode (by decide) (by decide),
      others tyShow (by decide) (by decide)]

/-- C10: for every resource type and 22-character alphanumeric id, the URL
form is accepted with scheme `http://`, with scheme `https://`, or with no
scheme at all, and all three parse to the same tuple: the type's slot holds
the id and every other slot is empty. -/
theorem claim_C10_scheme_optional (ty id : List Char) (hty : ty ∈ slotTypes)
    (hlen : id.length = 22) (hal : id.all isAlnumA = true) :
    regexInputL (litHost ++ '/' :: (ty ++ '/' :: id)) = expectedTuple ty id ∧
    regexInputL (litHttp ++ (litHost ++ '/' :: (ty ++ '/' :: id))) = expectedTuple ty id ∧
    regexInputL (litHttps ++ (litHost ++ '/' :: (ty ++ '/' :: id))) = expectedTuple ty id := by
  have hq : queryOk ([] : List Char) = true := rfl
  refine ⟨?_, ?_, ?_⟩
  · have h := @slotSearch_url_hit [] ty id [] (Or.inl rfl) hlen hal hq
    simp only [List.nil_append, List.append_nil] at h
    exact single_slot hty h
  · have h := @slotSearch_url_hit litHttp ty id [] (Or.inr (Or.inl rfl)) hlen hal hq
    simp only [List.append_nil] at h
    exact single_slot hty h
  · have h := @slotSearch_url_hit litHttps ty id [] (Or.inr (Or.inr rfl)) hlen hal hq
    simp only [List.append_nil] at h
    exact single_slot hty h

/-- Witness for C10 at `ty = "track"`, `id = 22 × 'a'`. -/
theorem claim_C10_witness :
    regexInputL (litHost ++ '/' :: (tyTrack ++ '/' :: List.replicate 22 'a')) =
      expectedTuple tyTrack (List.replicate 22 'a') ∧
    regexInputL (litHttp ++ (litHost ++ '/' :: (tyTrack ++ '/' :: List.replicate 22 'a'))) =
      expectedTuple tyTrack (List.replicate 22 'a') ∧
    regexInputL (litHttps ++ (litHost ++ '/' :: (tyTrack ++ '/' :: List.replicate 22 'a'))) =
      expectedTuple tyTrack (List.replicate 22 'a') :=
  claim_C10_scheme_optional tyTrack (List.replicate 22 'a') (by decide) (by decide) (by decide)

/-! ### Failing matches -/

theorem slot_none_of {ty s : List Char} (h1 : uriSearch ty s = none)
    (h2 : urlSearch ty s = none) : slotSearch ty s = none := by
  unfold slotSearch
  simp only [h1, h2]

theorem urlSearch_spotify_none (ty2 x : List Char) :
    urlSearch ty2 (litSpotify ++ x) = none := rfl

theorem uriSearch_self_tail {ty id tail : List Char} (hlen : id.length = 22)
    (hal : id.all isAlnumA = true) :
    uriSearch ty (litSpotify ++ (ty ++ ':' :: (id ++ tail))) =
      if endNL tail then some id else none := by
  unfold uriSearch
  have hdrop : dropPre (litSpotify ++ ty ++ (':' :: []))
      (litSpotify ++ (ty ++ ':' :: (id ++ tail))) = some (id ++ tail) := by
    have := dropPre_self (litSpotify ++ ty ++ (':' :: [])) (id ++ tail)
    simpa [List.append_assoc] using this
  simp only [hdrop, take22_append hlen hal]

theorem uri_slot_none_of_other {ty ty2 rest : List Char}
    (hc : ty.all (fun c => c != ':') = true) (hc2 : ty2.all (fun c => c != ':') = true)
    (hne : ty2 ≠ ty) :
    uriSearch ty2 (litSpotify ++ (ty ++ ':' :: rest)) = none := by
  cases e : uriSearch ty2 (litSpotify ++ (ty ++ ':' :: rest)) with
  | none => rfl
  | some v =>
    have t1 := uriType_of_uriSearch hc2 e
    have hstop : (ty ++ ':' :: rest).takeWhile (fun c => c != ':') = ty :=
      takeWhile_append_stop (fun y hy => (List.all_eq_true.mp hc) y hy) (by decide)
    have t2 : uriType (litSpotify ++ (ty ++ ':' :: rest)) = some ty := by
      unfold uriType
      simp only [dropPre_self, hstop]
    rw [t1] at t2
    exact absurd (Option.some_injective _ t2) hne

/-- When every slot fails, the tuple is all-`None`. -/
theorem all_none {s : List Char} (h : ∀ ty ∈ slotTypes, slotSearch ty s = none) :
    regexInputL s = noneTuple := by
  show (slotSearch tyTrack s, slotSearch tyAlbum s, slotSearch tyPlaylist s,
      slotSearch tyEpisode s, slotSearch tyShow s, slotSearch tyArtist s) =
    (none, none, none, none, none, none)
  rw [h tyTrack (by decide), h tyAlbum (by decide), h tyPlaylist (by decide),
    h tyEpisode (by decide), h tyShow (by decide), h tyArtist (by decide)]

/-- C5 counterexample: a URL with the non-`si` query `?utm=1` does not match at
all (the claim requires the track slot to hold the id for any query). -/
theorem claim_C5_cex :
    regex_input_for_urls ("https://open.spotify.com/track/aaaaaaaaaaaaaaaaaaaaaa?utm=1") =
      noneTuple := by decide

/-- C5 (amended): a URL-form input tolerates exactly the queries of the form
`?si=<one or more non-newline characters>` — parsing to the same id in the
type's slot — while a URI-form input with such a query appended does not match
at all. -/
theorem claim_C5_query_forms (ty id qc : List Char) (hty : ty ∈ slotTypes)
    (hlen : id.length = 22) (hal : id.all isAlnumA = true)
    (h0 : qc ≠ []) (hn : qc.all (fun c => c != '\n') = true) :
    regexInputL (litHttps ++ (litHost ++ '/' :: (ty ++ '/' :: (id ++ (litQsi ++ qc))))) =
      expectedTuple ty id ∧
    regexInputL (litSpotify ++ (ty ++ ':' :: (id ++ (litQsi ++ qc)))) = noneTuple := by
  constructor
  · exact single_slot hty
      (@slotSearch_url_hit litHttps ty id (litQsi ++ qc) (Or.inr (Or.inr rfl)) hlen hal
        (queryOk_qsi h0 hn))
  · apply all_none
    intro ty2 h2
    by_cases he : ty2 = ty
    · subst he
      refine slot_none_of ?_ (urlSearch_spotify_none _ _)
      rw [uriSearch_self_tail hlen hal]
      rfl
    · exact slot_none_of
        (uri_slot_none_of_other (slotTypes_good hty).2.2.1 (slotTypes_good h2).2.2.1 he)
        (urlSearch_spotify_none _ _)

/-- Witness for C5 at `ty = "track"`, `id = 22 × 'a'`, query content `xyz`. -/
theorem claim_C5_witness :
    regexInputL (litHttps ++ (litHost ++ '/' ::
        (tyTrack ++ '/' :: (List.replicate 22 'a' ++ (litQsi ++ ('x' :: 'y' :: 'z' :: [])))))) =
      expectedTuple tyTrack (List.replicate 22 'a') ∧
    regexInputL (litSpotify ++ (tyTrack ++ ':' ::
        (List.replicate 22 'a' ++ (litQsi ++ ('x' :: 'y' :: 'z' :: []))))) = noneTuple :=
  claim_C5_query_forms tyTrack (List.replicate 22 'a') ('x' :: 'y' :: 'z' :: [])
    (by decide) (by decide) (by decide) (by decide) (by decide)

theorem endNL_eq_true {l : List Char} (h : endNL l = true) : l = [] ∨ l = ('\n' :: []) := by
  match l with
  | [] => exact Or.inl rfl
  | c :: [] =>
    right
    simp only [endNL, decide_eq_true_eq] at h
    rw [h]
  | a :: b :: t => simp [endNL] at h

theorem stripNL_eq_nil {q : List Char} (h : stripNL q = []) : q = [] ∨ q = ('\n' :: []) := by
  unfold stripNL at h
  by_cases hl : q.getLast? = some '\n'
  · rw [if_pos hl] at h
    rcases List.eq_nil_or_concat q with rfl | ⟨xs, x, rfl⟩
    · exact Or.inl rfl
    · right
      simp only [List.concat_eq_append, List.dropLast_concat] at h
      subst h
      simp only [List.nil_append, List.concat_eq_append]
      simp only [List.concat_eq_append, List.getLast?_concat, Option.some.injEq] at hl
      rw [hl]
  · rw [if_neg hl] at h
    exact Or.inl h

theorem mem_of_mem_stripNL {c : Char} {q : List Char} (h : c ∈ stripNL q) : c ∈ q := by
  unfold stripNL at h
  by_cases hl : q.getLast? = some '\n'
  · rw [if_pos hl] at h
    exact List.dropLast_subset q h
  · rw [if_neg hl] at h
    exact h

theorem take22_inv {r core rest : List Char} (h : take22 r = some (core, rest)) :
    r = core ++ rest ∧ core.length = 22 ∧ core.all isAlnumA = true := by
  unfold take22 at h
  by_cases hc : ((r.take 22).length = 22 && (r.take 22).all isAlnumA) = true
  · rw [if_pos hc] at h
    simp only [Option.some.injEq, Prod.mk.injEq] at h
    obtain ⟨e1, e2⟩ := h
    rw [Bool.and_eq_true, decide_eq_true_eq] at hc
    refine ⟨?_, ?_, ?_⟩
    · rw [← e1, ← e2, List.take_append_drop]
    · rw [← e1]; exact hc.1
    · rw [← e1]; exact hc.2
  · rw [if_neg hc] at h
    exact Option.noConfusion h

theorem take22_inv_eq {r core rest : List Char} (h : take22 r = some (core, rest)) :
    core = r.take 22 ∧ rest = r.drop 22 := by
  unfold take22 at h
  by_cases hc : ((r.take 22).length = 22 && (r.take 22).all isAlnumA) = true
  · rw [if_pos hc] at h
    simp only [Option.some.injEq, Prod.mk.injEq] at h
    exact ⟨h.1.symm, h.2.symm⟩
  · rw [if_neg hc] at h
    exact Option.noConfusion h

theorem stripNL_decomp {q x : List Char} (h : stripNL q = x) :
    q = x ∨ q = x ++ ('\n' :: []) := by
  unfold stripNL at h
  by_cases hl : q.getLast? = some '\n'
  · rw [if_pos hl] at h
    rcases List.eq_nil_or_concat q with rfl | ⟨xs, c, rfl⟩
    · simp at hl
    · right
      simp only [List.concat_eq_append, List.dropLast_concat] at h
      simp only [List.concat_eq_append, List.getLast?_concat, Option.some.injEq] at hl
      rw [h, hl]
      exact List.concat_eq_append _ _
  · rw [if_neg hl] at h
    exact Or.inl h

theorem queryOk_cases {q : List Char} (h : queryOk q = true) :
    stripNL q = [] ∨ ∃ content, stripNL q = litQsi ++ content := by
  unfold queryOk at h
  rw [Bool.or_eq_true] at h
  rcases h with h | h
  · exact Or.inl (List.isEmpty_iff.mp h)
  · right
    cases hd : dropPre litQsi (stripNL q) with
    | none => rw [hd] at h; exact absurd h (by decide)
    | some content => exact ⟨content, dropPre_eq_some.mp hd⟩

/-- C6 counterexample: a URI whose identifier region is a valid 22-character
id followed by one newline — 23 characters, one outside `[0-9a-zA-Z]` — still
matches, because Python's `$` matches just before a trailing newline.  The
claim requires all slots to be `None` here. -/
theorem claim_C6_cex :
    regex_input_for_urls ("spotify:track:aaaaaaaaaaaaaaaaaaaaaa\n") =
      (some (List.replicate 22 'a'), none, none, none, none, none) := by decide

/-- C6 (amended): for every resource type, a URI or URL input whose identifier
part is malformed — wrong length over the valid charset, or containing a bad
character — yields all six slots `None`, except for the two decompositions the
regex accepts beyond a bare valid id: a valid 22-character id followed by a
single trailing newline (Python's `$`), and (URL forms) a valid 22-character
id followed by a region starting with the literal `?si=`; absence is the only
signal, the function being total.  The three hypotheses exclude exactly those
decompositions; every other identifier region — e.g. `ab?c`, or a valid id
followed by `?utm=1` — is covered. -/
theorem claim_C6_malformed_ids (ty id : List Char) (hty : ty ∈ slotTypes)
    (hbad : ¬(id.length = 22 ∧ id.all isAlnumA = true))
    (hnl : ¬(id.length = 23 ∧ id.getLast? = some '\n' ∧ id.dropLast.all isAlnumA = true))
    (hq : ¬((id.take 22).length = 22 ∧ (id.take 22).all isAlnumA = true ∧
      (dropPre litQsi (id.drop 22)).isSome = true)) :
    regexInputL (litSpotify ++ (ty ++ ':' :: id)) = noneTuple ∧
    regexInputL (litHost ++ '/' :: (ty ++ '/' :: id)) = noneTuple := by
  obtain ⟨a1, b1, c1, d1⟩ := slotTypes_good hty
  have idsplit : ∀ core rest : List Char, id = core ++ rest → core.length = 22 →
      core.all isAlnumA = true → rest ≠ [] ∧ rest ≠ ('\n' :: []) := by
    intro core rest hr hlen22 hal22
    constructor
    · rintro rfl
      rw [List.append_nil] at hr
      exact hbad ⟨hr ▸ hlen22, hr ▸ hal22⟩
    · rintro rfl
      refine hnl ⟨?_, ?_, ?_⟩
      · rw [hr]; simp [hlen22]
      · rw [hr]; simp
      · rw [hr]
        simp only [List.dropLast_concat]
        exact hal22
  constructor
  · apply all_none
    intro ty2 h2
    by_cases he : ty2 = ty
    · subst he
      refine slot_none_of ?_ (urlSearch_spotify_none _ _)
      cases e : uriSearch ty2 (litSpotify ++ (ty2 ++ ':' :: id)) with
      | none => rfl
      | some v =>
        exfalso
        have hdrop : dropPre (litSpotify ++ ty2 ++ (':' :: []))
            (litSpotify ++ (ty2 ++ ':' :: id)) = some id := by
          have := dropPre_self (litSpotify ++ ty2 ++ (':' :: [])) id
          simpa [List.append_assoc] using this
        unfold uriSearch at e
        simp only [hdrop] at e
        cases h22 : take22 id with
        | none => simp only [h22] at e; exact Option.noConfusion e
        | some p =>
          obtain ⟨core, rest⟩ := p
          simp only [h22] at e
          obtain ⟨hr, hlen22, hal22⟩ := take22_inv h22
          by_cases hend : endNL rest = true
          · obtain ⟨hne1, hne2⟩ := idsplit core rest hr hlen22 hal22
            rcases endNL_eq_true hend with rfl | rfl
            · exact hne1 rfl
            · exact hne2 rfl
          · rw [if_neg hend] at e
            exact Option.noConfusion e
    · exact slot_none_of
        (uri_slot_none_of_other c1 (slotTypes_good h2).2.2.1 he)
        (urlSearch_spotify_none _ _)
  · apply all_none
    intro ty2 h2
    by_cases he : ty2 = ty
    · subst he
      refine slot_none_of (by rfl) ?_
      cases e : urlSearch ty2 (litHost ++ '/' :: (ty2 ++ '/' :: id)) with
      | none => rfl
      | some v =>
        exfalso
        unfold urlSearch at e
        simp only [stripScheme_host, dropPre_self] at e
        unfold afterHost at e
        cases ht : tyIdQ ty2 ('/' :: (ty2 ++ '/' :: id)) with
        | some w =>
          have hdrop : dropPre ('/' :: (ty2 ++ ('/' :: []))) ('/' :: (ty2 ++ '/' :: id)) =
              some id := by
            have := dropPre_self ('/' :: (ty2 ++ ('/' :: []))) id
            simpa [List.append_assoc] using this
          unfold tyIdQ at ht
          simp only [hdrop] at ht
          cases h22 : take22 id with
          | none => simp only [h22] at ht; exact Option.noConfusion ht
          | some p =>
            obtain ⟨core, rest⟩ := p
            simp only [h22] at ht
            obtain ⟨hr, hlen22, hal22⟩ := take22_inv h22
            by_cases hqk : queryOk rest = true
            · obtain ⟨hne1, hne2⟩ := idsplit core rest hr hlen22 hal22
              rcases queryOk_cases hqk with hempty | ⟨content, hcontent⟩
              · rcases stripNL_eq_nil hempty with rfl | rfl
                · exact hne1 rfl
                · exact hne2 rfl
              · obtain ⟨e1, e2⟩ := take22_inv_eq h22
                have hq2 : ∃ q2, rest = litQsi ++ q2 := by
                  rcases stripNL_decomp hcontent with hrest | hrest
                  · exact ⟨content, hrest⟩
                  · exact ⟨content ++ ('\n' :: []), by rw [hrest, List.append_assoc]⟩
                obtain ⟨q2, hq2⟩ := hq2
                refine hq ⟨?_, ?_, ?_⟩
                · rw [← e1]; exact hlen22
                · rw [← e1]; exact hal22
                · rw [← e2, hq2, dropPre_self]; rfl
            · rw [if_neg hqk] at ht
              exact Option.noConfusion ht
        | none =>
          simp only [ht, dropPre_intl_none a1 b1] at e
          exact Option.noConfusion e
    · refine slot_none_of (by rfl) ?_
      cases e : urlSearch ty2 (litHost ++ '/' :: (ty ++ '/' :: id)) with
      | none => rfl
      | some v =>
        obtain ⟨a2, b2, _, d2⟩ := slotTypes_good h2
        have t1 := urlType_of_urlSearch a2 b2 d2 e
        have t2 : urlType (litHost ++ '/' :: (ty ++ '/' :: id)) = some ty := by
          unfold urlType
          simp only [stripScheme_host, dropPre_self, dropPre_intl_none a1 b1]
          exact headSlash_ty d1
        rw [t1] at t2
        exact absurd (Option.some_injective _ t2) he

-- A malformed id containing `?` (not a `?si=` decomposition) is covered:
example :
    regex_input_for_urls ("spotify:track:ab?c") = noneTuple := by decide
example :
    regex_input_for_urls ("open.spotify.com/track/aaaaaaaaaaaaaaaaaaaaaa?utm=1") = noneTuple := by
  decide

/-- Witness for C6 at `ty = "track"` with the identifier region
`22 × 'a'` followed by `?utm=1` — 29 characters, containing `?`, and not a
`?si=` decomposition. -/
theorem claim_C6_witness :
    regexInputL (litSpotify ++ (tyTrack ++ ':' ::
        (List.replicate 22 'a' ++ ('?' :: 'u' :: 't' :: 'm' :: '=' :: '1' :: [])))) =
      noneTuple ∧
    regexInputL (litHost ++ '/' :: (tyTrack ++ '/' ::
        (List.replicate 22 'a' ++ ('?' :: 'u' :: 't' :: 'm' :: '=' :: '1' :: [])))) =
      noneTuple :=
  claim_C6_malformed_ids tyTrack
    (List.replicate 22 'a' ++ ('?' :: 'u' :: 't' :: 'm' :: '=' :: '1' :: []))
    (by decide) (by decide) (by decide) (by decide)

/-! ### Claims about fmt_seconds -/

/-- C1 counterexample: `fmt_seconds 5` is `"5s"`, not the zero-padded `"05s"`
the claim asserts — the code appends `'s'` before `zfill(2)`, and `"5s"` is
already two characters wide, so no padding happens. -/
theorem claim_C1_cex : fmt_seconds 5 = "5s" ∧ fmt_seconds 5 ≠ "05s" := by decide

/-- C1 (amended): on a floored count with zero hours, zero minutes and nonzero
seconds, `fmt_seconds` returns `str(s) + "s"` zero-filled to total width 2 —
which pads nothing for one-digit seconds, since `"5s"` is already width 2 —
so `fmt_seconds 5 = "5s"`; the other listed examples hold as stated:
`fmt_seconds 0 = "0s"`, `fmt_seconds 65 = "01:05"`,
`fmt_seconds 3661 = "01:01:01"`. -/
theorem claim_C1_seconds_branch :
    (∀ n : Nat, 0 < n → n < 60 → fmt_seconds n = zfill (Nat.repr n ++ "s") 2) ∧
    fmt_seconds 0 = "0s" ∧ fmt_seconds 5 = "5s" ∧
    fmt_seconds 65 = "01:05" ∧ fmt_seconds 3661 = "01:01:01" := by
  refine ⟨?_, by decide, by decide, by decide, by decide⟩
  intro n h1 h2
  have hs : n % 60 = n := Nat.mod_eq_of_lt h2
  have hm : n / 60 = 0 := Nat.div_eq_of_lt h2
  have hh : n / 3600 = 0 := Nat.div_eq_of_lt (by omega)
  unfold fmt_seconds
  rw [hs, hm, hh]
  rw [if_neg (by omega), if_pos (by omega)]

/-- Witness for C1 at `n = 7`: the hypotheses `0 < 7` and `7 < 60` hold and
the seconds branch returns `zfill "7s" 2 = "7s"`. -/
theorem claim_C1_witness : fmt_seconds 7 = zfill (Nat.repr 7 ++ "s") 2 ∧ fmt_seconds 7 = "7s" :=
  ⟨claim_C1_seconds_branch.1 7 (by decide) (by decide), by decide⟩

/-! ### Claims about the directory archive -/

/-- C8: with directory archiving disabled, `create_download_directory` still
creates the directory but leaves the `.song_ids` manifest untouched,
`add_to_directory_song_ids` changes nothing, and `get_directory_song_ids`
returns `[]` whatever the manifest holds. -/
theorem claim_C8_disabled_noop (st : DirState) (file : Option (List Char))
    (song_id filename author_name song_name now : List Char) :
    create_download_directory true st = { dirExists := true, songIds := st.songIds } ∧
    add_to_directory_song_ids true file song_id filename author_name song_name now = file ∧
    get_directory_song_ids true file = [] := by
  refine ⟨rfl, rfl, ?_⟩
  cases file <;> rfl

/-- C9: a missing global archive file and a missing directory manifest are
both read as the empty sequence, with no error (the functions are total). -/
theorem claim_C9_missing_file_empty (d : Bool) :
    get_previously_downloaded none = [] ∧ get_directory_song_ids d none = [] :=
  ⟨rfl, rfl⟩

/-! ### Reading back appended archive lines -/

theorem splitLinesL_ne_nil {s : List Char} (h : s ≠ []) : splitLinesL s ≠ [] := by
  cases s with
  | nil => exact absurd rfl h
  | cons c cs =>
    unfold splitLinesL
    by_cases hc : c = '\n'
    · rw [if_pos hc]; simp
    · rw [if_neg hc]
      cases splitLinesL cs <;> simp

theorem splitLinesL_cons_nl (cs : List Char) :
    splitLinesL ('\n' :: cs) = ('\n' :: []) :: splitLinesL cs := rfl

theorem splitLinesL_cons_other_nil {c : Char} {cs : List Char} (hc : c ≠ '\n')
    (h : splitLinesL cs = []) : splitLinesL (c :: cs) = (c :: []) :: [] := by
  rw [splitLinesL, if_neg hc, h]

theorem splitLinesL_cons_other_cons {c : Char} {cs l : List Char} {ls : List (List Char)}
    (hc : c ≠ '\n') (h : splitLinesL cs = l :: ls) :
    splitLinesL (c :: cs) = (c :: l) :: ls := by
  rw [splitLinesL, if_neg hc, h]

theorem splitLinesL_append : ∀ {a : List Char} (b : List Char),
    a.getLast? = some '\n' → splitLinesL (a ++ b) = splitLinesL a ++ splitLinesL b := by
  intro a
  induction a with
  | nil => intro b hb; simp at hb
  | cons c cs ih =>
    intro b hb
    cases cs with
    | nil =>
      simp only [List.getLast?_singleton, Option.some.injEq] at hb
      subst hb
      rw [List.cons_append, splitLinesL_cons_nl, splitLinesL_cons_nl]
      rfl
    | cons d ds =>
      have hb2 : (d :: ds).getLast? = some '\n' := by
        rwa [List.getLast?_cons_cons] at hb
      have ih2 := ih b hb2
      cases hsp : splitLinesL (d :: ds) with
      | nil => exact absurd hsp (splitLinesL_ne_nil (by simp))
      | cons l ls =>
        rw [hsp] at ih2
        simp only [List.cons_append] at ih2
        by_cases hc : c = '\n'
        · subst hc
          simp only [List.cons_append]
          rw [splitLinesL_cons_nl, splitLinesL_cons_nl, ih2, hsp]
          simp only [List.cons_append]
        · simp only [List.cons_append]
          rw [splitLinesL_cons_other_cons hc ih2, splitLinesL_cons_other_cons hc hsp]
          simp only [List.cons_append]

theorem splitLinesL_single {body : List Char} (h : '\n' ∉ body) :
    splitLinesL (body ++ ('\n' :: [])) = (body ++ ('\n' :: [])) :: [] := by
  induction body with
  | nil => rfl
  | cons c cs ih =>
    have hc : c ≠ '\n' := by
      intro e
      exact h (by simp [e])
    have ih2 := ih (fun m => h (List.mem_cons_of_mem _ m))
    rw [List.cons_append, splitLinesL_cons_other_cons hc ih2]

theorem firstField_stripWs_line {id rest : List Char}
    (hid0 : id ≠ [])
    (hhead : ∀ c, id.head? = some c → isSpaceU c = false)
    (hlast : ∀ c, id.getLast? = some c → isSpaceU c = false)
    (htab : id.all (fun c => c != '\t') = true) :
    firstField (stripWs (id ++ '\t' :: rest)) = id := by
  unfold stripWs
  have hlead : (id ++ '\t' :: rest).dropWhile isSpaceU = id ++ '\t' :: rest := by
    cases id with
    | nil => exact absurd rfl hid0
    | cons c0 cs0 =>
      have h0 := hhead c0 rfl
      simp [List.dropWhile_cons, h0]
  rw [hlead]
  have hrev : (id ++ '\t' :: rest).reverse = rest.reverse ++ ('\t' :: id.reverse) := by
    simp
  rw [hrev, List.dropWhile_append]
  by_cases hA : ((rest.reverse).dropWhile isSpaceU).isEmpty
  · rw [if_pos hA]
    obtain ⟨xs, x, rfl⟩ : ∃ xs x, id = xs ++ (x :: []) := by
      rcases List.eq_nil_or_concat id with rfl | ⟨xs, x, h⟩
      · exact absurd rfl hid0
      · exact ⟨xs, x, by simpa using h⟩
    have hx : isSpaceU x = false := hlast x (by simp)
    have htb : isSpaceU '\t' = true := by decide
    have hdrop2 : ('\t' :: (xs ++ (x :: [])).reverse).dropWhile isSpaceU =
        (xs ++ (x :: [])).reverse := by
      simp [List.dropWhile_cons, htb, hx]
    rw [hdrop2, List.reverse_reverse]
    exact takeWhile_of_all (fun y hy => (List.all_eq_true.mp htab) y hy)
  · rw [if_neg hA]
    have hrw : ((rest.reverse.dropWhile isSpaceU) ++ ('\t' :: id.reverse)).reverse =
        id ++ '\t' :: (rest.reverse.dropWhile isSpaceU).reverse := by
      simp
    rw [hrw]
    exact takeWhile_append_stop (fun y hy => (List.all_eq_true.mp htab) y hy) (by decide)

theorem archiveLine_eq (song_id now author_name song_name filename : List Char) :
    archiveLine song_id now author_name song_name filename =
      (song_id ++ '\t' :: (now ++ '\t' :: (author_name ++ '\t' :: (song_name ++ '\t' :: filename)))) ++
        ('\n' :: []) := by
  unfold archiveLine
  simp

theorem archiveLine_getLast (song_id now author_name song_name filename : List Char) :
    (archiveLine song_id now author_name song_name filename).getLast? = some '\n' := by
  rw [archiveLine_eq]
  exact List.getLast?_concat _

theorem no_nl_line {id ts au sn fn : List Char}
    (hid : id.all (fun c => c != '\t' && c != '\n') = true)
    (hfields : (ts ++ au ++ sn ++ fn).all (fun c => c != '\n') = true) :
    '\n' ∉ (id ++ '\t' :: (ts ++ '\t' :: (au ++ '\t' :: (sn ++ '\t' :: fn)))) := by
  simp only [List.all_append, Bool.and_eq_true] at hfields
  obtain ⟨⟨⟨hts, hau⟩, hsn⟩, hfn⟩ := hfields
  intro hmem
  simp only [List.mem_append, List.mem_cons] at hmem
  have hbad : ∀ l : List Char, l.all (fun c => c != '\n') = true → '\n' ∈ l → False := by
    intro l hl hm
    have := List.all_eq_true.mp hl _ hm
    simp at this
  have hidn : id.all (fun c => c != '\n') = true := by
    rw [List.all_eq_true] at hid ⊢
    intro x hx
    have h2 := hid x hx
    rw [Bool.and_eq_true] at h2
    exact h2.2
  rcases hmem with h | h | h | h | h | h | h | h | h
  · exact hbad id hidn h
  · exact absurd h (by decide)
  · exact hbad ts hts h
  · exact absurd h (by decide)
  · exact hbad au hau h
  · exact absurd h (by decide)
  · exact hbad sn hsn h
  · exact absurd h (by decide)
  · exact hbad fn hfn h

/-- C7: appending two archive records with the same id (total function — no
exception) leaves the previous content untouched and both full lines present
in append order, and `get_previously_downloaded` then returns the id twice, in
file order, appended to the previously listed ids. -/
theorem claim_C7_duplicate_ids (archive : Option (List Char))
    (id f1 a1 s1 t1 f2 a2 s2 t2 : List Char)
    (hid0 : id ≠ [])
    (hchars : id.all (fun c => c != '\t' && c != '\n') = true)
    (hhead : ∀ c, id.head? = some c → isSpaceU c = false)
    (hlast : ∀ c, id.getLast? = some c → isSpaceU c = false)
    (hline1 : (t1 ++ a1 ++ s1 ++ f1).all (fun c => c != '\n') = true)
    (hline2 : (t2 ++ a2 ++ s2 ++ f2).all (fun c => c != '\n') = true)
    (harch : ∀ cc, archive = some cc → cc = [] ∨ cc.getLast? = some '\n') :
    add_to_archive (some (add_to_archive archive id f1 a1 s1 t1)) id f2 a2 s2 t2 =
      archive.getD [] ++ (archiveLine id t1 a1 s1 f1 ++ archiveLine id t2 a2 s2 f2) ∧
    get_previously_downloaded
        (some (add_to_archive (some (add_to_archive archive id f1 a1 s1 t1)) id f2 a2 s2 t2)) =
      get_previously_downloaded archive ++ (id :: id :: []) := by
  have htab : id.all (fun c => c != '\t') = true := by
    rw [List.all_eq_true] at hchars ⊢
    intro x hx
    have h2 := hchars x hx
    rw [Bool.and_eq_true] at h2
    exact h2.1
  constructor
  · show (archive.getD [] ++ archiveLine id t1 a1 s1 f1) ++ archiveLine id t2 a2 s2 f2 =
      archive.getD [] ++ (archiveLine id t1 a1 s1 f1 ++ archiveLine id t2 a2 s2 f2)
    rw [List.append_assoc]
  · have hsplit1 : splitLinesL (archiveLine id t1 a1 s1 f1) =
        (archiveLine id t1 a1 s1 f1) :: [] := by
      rw [archiveLine_eq]
      exact splitLinesL_single (no_nl_line hchars hline1)
    have hsplit2 : splitLinesL (archiveLine id t2 a2 s2 f2) =
        (archiveLine id t2 a2 s2 f2) :: [] := by
      rw [archiveLine_eq]
      exact splitLinesL_single (no_nl_line hchars hline2)
    have hf1 : firstField (stripWs (archiveLine id t1 a1 s1 f1)) = id := by
      show firstField (stripWs (id ++ '\t' ::
        (t1 ++ '\t' :: (a1 ++ '\t' :: (s1 ++ '\t' :: (f1 ++ ('\n' :: []))))))) = id
      exact firstField_stripWs_line hid0 hhead hlast htab
    have hf2 : firstField (stripWs (archiveLine id t2 a2 s2 f2)) = id := by
      show firstField (stripWs (id ++ '\t' ::
        (t2 ++ '\t' :: (a2 ++ '\t' :: (s2 ++ '\t' :: (f2 ++ ('\n' :: []))))))) = id
      exact firstField_stripWs_line hid0 hhead hlast htab
    have hmid : splitLinesL (archiveLine id t1 a1 s1 f1 ++ archiveLine id t2 a2 s2 f2) =
        (archiveLine id t1 a1 s1 f1) :: (archiveLine id t2 a2 s2 f2) :: [] := by
      rw [splitLinesL_append _ (archiveLine_getLast id t1 a1 s1 f1), hsplit1, hsplit2]
      rfl
    have hcombined : splitLinesL ((archive.getD [] ++ archiveLine id t1 a1 s1 f1) ++
          archiveLine id t2 a2 s2 f2) =
        splitLinesL (archive.getD []) ++
          ((archiveLine id t1 a1 s1 f1) :: (archiveLine id t2 a2 s2 f2) :: []) := by
      rw [List.append_assoc]
      cases archive with
      | none =>
        show splitLinesL ([] ++ _) = splitLinesL ([] : List Char) ++ _
        rw [List.nil_append, hmid]
        rfl
      | some cc =>
        rcases harch cc rfl with rfl | hcc
        · show splitLinesL ([] ++ _) = splitLinesL ([] : List Char) ++ _
          rw [List.nil_append, hmid]
          rfl
        · show splitLinesL (cc ++ _) = splitLinesL cc ++ _
          rw [splitLinesL_append _ hcc, hmid]
    show (splitLinesL ((archive.getD [] ++ archiveLine id t1 a1 s1 f1) ++
        archiveLine id t2 a2 s2 f2)).map (fun l => firstField (stripWs l)) =
      get_previously_downloaded archive ++ (id :: id :: [])
    rw [hcombined, List.map_append]
    have hleft : (splitLinesL (archive.getD [])).map (fun l => firstField (stripWs l)) =
        get_previously_downloaded archive := by
      cases archive <;> rfl
    rw [hleft]
    simp [hf1, hf2]

/-- Witness for C7: a fresh archive (`none`), id `abc`, concrete fields. -/
theorem claim_C7_witness :
    add_to_archive
        (some (add_to_archive none (("abc").data) (("f1").data) (("au1").data)
          (("sn1").data) (("2024-01-01 00:00:00").data)))
        (("abc").data) (("f2").data) (("au2").data) (("sn2").data)
        (("2024-01-02 00:00:00").data) =
      (none : Option (List Char)).getD [] ++
        (archiveLine (("abc").data) (("2024-01-01 00:00:00").data) (("au1").data)
            (("sn1").data) (("f1").data) ++
          archiveLine (("abc").data) (("2024-01-02 00:00:00").data) (("au2").data)
            (("sn2").data) (("f2").data)) ∧
    get_previously_downloaded
        (some (add_to_archive
          (some (add_to_archive none (("abc").data) (("f1").data) (("au1").data)
            (("sn1").data) (("2024-01-01 00:00:00").data)))
          (("abc").data) (("f2").data) (("au2").data) (("sn2").data)
          (("2024-01-02 00:00:00").data))) =
      get_previously_downloaded none ++ (("abc").data :: ("abc").data :: []) :=
  claim_C7_duplicate_ids none (("abc").data) (("f1").data) (("au1").data) (("sn1").data)
    (("2024-01-01 00:00:00").data) (("f2").data) (("au2").data) (("sn2").data)
    (("2024-01-02 00:00:00").data) (by decide) (by decide)
    (fun c hc => by simp at hc; rw [← hc]; decide)
    (fun c hc => by simp at hc; rw [← hc]; decide)
    (by decide) (by decide) (fun cc hcc => by simp at hcc)

/-! ### Idempotence of fix_filename -/

theorem fixTail_cons_forbidden {c : Char} (h : forbiddenChar c = true) (cs : List Char) :
    fixTail (c :: cs) = '_' :: fixTail cs := by
  rw [fixTail, if_pos h]

theorem fixTail_cons_endish {c : Char} {cs : List Char} (h1 : forbiddenChar c = false)
    (h2 : ((isSpaceU c || c = '.') && endNL cs) = true) :
    fixTail (c :: cs) = '_' :: fixTail cs := by
  rw [fixTail, if_neg (by simp [h1]), if_pos h2]

theorem fixTail_cons_keep {c : Char} {cs : List Char} (h1 : forbiddenChar c = false)
    (h2 : ((isSpaceU c || c = '.') && endNL cs) = false) :
    fixTail (c :: cs) = c :: fixTail cs := by
  rw [fixTail, if_neg (by simp [h1]), if_neg (by simp [h2])]

/-- Pointwise relation between a string and a rewriting of it: each position
is kept or replaced by `_`. -/
inductive CR : List Char → List Char → Prop
  | nil : CR [] []
  | keep (c : Char) {s t : List Char} : CR s t → CR (c :: s) (c :: t)
  | und (c : Char) {s t : List Char} : CR s t → CR (c :: s) ('_' :: t)

theorem cr_fixTail : ∀ s : List Char, CR s (fixTail s) := by
  intro s
  induction s with
  | nil => exact CR.nil
  | cons c cs ih =>
    cases h1 : forbiddenChar c with
    | true => rw [fixTail_cons_forbidden h1]; exact CR.und c ih
    | false =>
      cases h2 : ((isSpaceU c || c = '.') && endNL cs) with
      | true => rw [fixTail_cons_endish h1 h2]; exact CR.und c ih
      | false => rw [fixTail_cons_keep h1 h2]; exact CR.keep c ih

theorem fixTail_length : ∀ s : List Char, (fixTail s).length = s.length := by
  intro s
  induction s with
  | nil => rfl
  | cons c cs ih =>
    cases h1 : forbiddenChar c with
    | true => rw [fixTail_cons_forbidden h1]; simp [ih]
    | false =>
      cases h2 : ((isSpaceU c || c = '.') && endNL cs) with
      | true => rw [fixTail_cons_endish h1 h2]; simp [ih]
      | false => rw [fixTail_cons_keep h1 h2]; simp [ih]

theorem nl_not_mem_fixTail : ∀ s : List Char, '\n' ∉ fixTail s := by
  intro s
  induction s with
  | nil => simp [fixTail]
  | cons c cs ih =>
    cases h1 : forbiddenChar c with
    | true =>
      rw [fixTail_cons_forbidden h1]
      simp only [List.mem_cons]
      rintro (h | h)
      · exact absurd h (by decide)
      · exact ih h
    | false =>
      cases h2 : ((isSpaceU c || c = '.') && endNL cs) with
      | true =>
        rw [fixTail_cons_endish h1 h2]
        simp only [List.mem_cons]
        rintro (h | h)
        · exact absurd h (by decide)
        · exact ih h
      | false =>
        rw [fixTail_cons_keep h1 h2]
        simp only [List.mem_cons]
        rintro (h | h)
        · rw [← h] at h1
          exact absurd h1 (by decide)
        · exact ih h

theorem endNL_fixTail {cs : List Char} (h : endNL (fixTail cs) = true) : cs = [] := by
  rcases endNL_eq_true h with h2 | h2
  · have hlen := fixTail_length cs
    rw [h2] at hlen
    exact List.length_eq_zero.mp hlen.symm
  · exfalso
    apply nl_not_mem_fixTail cs
    rw [h2]
    simp

theorem fixTail_underscore (t : List Char) : fixTail ('_' :: t) = '_' :: fixTail t := by
  apply fixTail_cons_keep (by decide)
  rw [show ((isSpaceU '_' || decide ('_' = '.')) : Bool) = false from by decide]
  exact Bool.false_and _

theorem fixTail_idem : ∀ s : List Char, fixTail (fixTail s) = fixTail s := by
  intro s
  induction s with
  | nil => rfl
  | cons c cs ih =>
    cases h1 : forbiddenChar c with
    | true => rw [fixTail_cons_forbidden h1, fixTail_underscore, ih]
    | false =>
      cases h2 : ((isSpaceU c || c = '.') && endNL cs) with
      | true => rw [fixTail_cons_endish h1 h2, fixTail_underscore, ih]
      | false =>
        rw [fixTail_cons_keep h1 h2]
        have h2i : ((isSpaceU c || c = '.') && endNL (fixTail cs)) = false := by
          cases he : endNL (fixTail cs) with
          | false => rw [Bool.and_false]
          | true =>
            have hcs := endNL_fixTail he
            subst hcs
            exact h2
        rw [fixTail_cons_keep h1 h2i, ih]

theorem matchRes_underscore : ∀ t : List Char, matchRes ('_' :: t) = none := by
  intro t
  match t with
  | [] => rfl
  | x :: [] => rfl
  | x :: y :: w =>
    have c1 : ¬((('_').toUpper = 'A' ∧ x.toUpper = 'U' ∧ y.toUpper = 'X') ∨
        (('_').toUpper = 'C' ∧ x.toUpper = 'O' ∧ y.toUpper = 'N') ∨
        (('_').toUpper = 'N' ∧ x.toUpper = 'U' ∧ y.toUpper = 'L') ∨
        (('_').toUpper = 'P' ∧ x.toUpper = 'R' ∧ y.toUpper = 'N')) := by
      rintro (⟨h1, _⟩ | ⟨h1, _⟩ | ⟨h1, _⟩ | ⟨h1, _⟩) <;> exact absurd h1 (by decide)
    have c2 : ¬((('_').toUpper = 'C' ∧ x.toUpper = 'O' ∧ y.toUpper = 'M') ∨
        (('_').toUpper = 'L' ∧ x.toUpper = 'P' ∧ y.toUpper = 'T')) := by
      rintro (⟨h1, _⟩ | ⟨h1, _⟩) <;> exact absurd h1 (by decide)
    simp only [matchRes]
    rw [if_neg c1, if_neg c2]

theorem matchRes_underscore2 : ∀ (a : Char) (t : List Char),
    matchRes (a :: '_' :: t) = none := by
  intro a t
  match t with
  | [] => rfl
  | y :: w =>
    have c1 : ¬((a.toUpper = 'A' ∧ ('_').toUpper = 'U' ∧ y.toUpper = 'X') ∨
        (a.toUpper = 'C' ∧ ('_').toUpper = 'O' ∧ y.toUpper = 'N') ∨
        (a.toUpper = 'N' ∧ ('_').toUpper = 'U' ∧ y.toUpper = 'L') ∨
        (a.toUpper = 'P' ∧ ('_').toUpper = 'R' ∧ y.toUpper = 'N')) := by
      rintro (⟨_, h1, _⟩ | ⟨_, h1, _⟩ | ⟨_, h1, _⟩ | ⟨_, h1, _⟩) <;> exact absurd h1 (by decide)
    have c2 : ¬((a.toUpper = 'C' ∧ ('_').toUpper = 'O' ∧ y.toUpper = 'M') ∨
        (a.toUpper = 'L' ∧ ('_').toUpper = 'P' ∧ y.toUpper = 'T')) := by
      rintro (⟨_, h1, _⟩ | ⟨_, h1, _⟩) <;> exact absurd h1 (by decide)
    simp only [matchRes]
    rw [if_neg c1, if_neg c2]

theorem matchRes_underscore3 : ∀ (a b : Char) (t : List Char),
    matchRes (a :: b :: '_' :: t) = none := by
  intro a b t
  have c1 : ¬((a.toUpper = 'A' ∧ b.toUpper = 'U' ∧ ('_').toUpper = 'X') ∨
      (a.toUpper = 'C' ∧ b.toUpper = 'O' ∧ ('_').toUpper = 'N') ∨
      (a.toUpper = 'N' ∧ b.toUpper = 'U' ∧ ('_').toUpper = 'L') ∨
      (a.toUpper = 'P' ∧ b.toUpper = 'R' ∧ ('_').toUpper = 'N')) := by
    rintro (⟨_, _, h1⟩ | ⟨_, _, h1⟩ | ⟨_, _, h1⟩ | ⟨_, _, h1⟩) <;> exact absurd h1 (by decide)
  have c2 : ¬((a.toUpper = 'C' ∧ b.toUpper = 'O' ∧ ('_').toUpper = 'M') ∨
      (a.toUpper = 'L' ∧ b.toUpper = 'P' ∧ ('_').toUpper = 'T')) := by
    rintro (⟨_, _, h1⟩ | ⟨_, _, h1⟩) <;> exact absurd h1 (by decide)
  simp only [matchRes]
  rw [if_neg c1, if_neg c2]

theorem cr_lookNoDot {s t : List Char} (hcr : CR s t) (h : lookNoDot t = true) :
    lookNoDot s = true := by
  cases hcr with
  | nil => rfl
  | keep c hcr2 =>
    simp only [lookNoDot, decide_eq_true_eq] at h ⊢
    exact h
  | und c hcr2 =>
    simp only [lookNoDot, decide_eq_true_eq] at h
    exact absurd h (by decide)

theorem cr_matchRes {s t r : List Char} (hcr : CR s t) (h : matchRes t = some r) :
    ∃ rs, matchRes s = some rs := by
  cases hcr with
  | nil =>
    rw [show matchRes ([] : List Char) = none from rfl] at h
    exact Option.noConfusion h
  | und a hcr2 =>
    rw [matchRes_underscore] at h
    exact Option.noConfusion h
  | keep a hcr2 =>
    cases hcr2 with
    | nil =>
      rw [show matchRes (a :: []) = none from rfl] at h
      exact Option.noConfusion h
    | und b hcr3 =>
      rw [matchRes_underscore2] at h
      exact Option.noConfusion h
    | keep b hcr3 =>
      cases hcr3 with
      | nil =>
        rw [show matchRes (a :: b :: []) = none from rfl] at h
        exact Option.noConfusion h
      | und c hcr4 =>
        rw [matchRes_underscore3] at h
        exact Option.noConfusion h
      | keep c hcr4 =>
        rename_i s4 t4
        simp only [matchRes] at h ⊢
        by_cases c1 : ((a.toUpper = 'A' ∧ b.toUpper = 'U' ∧ c.toUpper = 'X') ∨
            (a.toUpper = 'C' ∧ b.toUpper = 'O' ∧ c.toUpper = 'N') ∨
            (a.toUpper = 'N' ∧ b.toUpper = 'U' ∧ c.toUpper = 'L') ∨
            (a.toUpper = 'P' ∧ b.toUpper = 'R' ∧ c.toUpper = 'N'))
        · rw [if_pos c1] at h ⊢
          by_cases hl : lookNoDot t4 = true
          · exact ⟨s4, by rw [if_pos (cr_lookNoDot hcr4 hl)]⟩
          · rw [if_neg hl] at h
            exact Option.noConfusion h
        · rw [if_neg c1] at h ⊢
          by_cases c2 : ((a.toUpper = 'C' ∧ b.toUpper = 'O' ∧ c.toUpper = 'M') ∨
              (a.toUpper = 'L' ∧ b.toUpper = 'P' ∧ c.toUpper = 'T'))
          · rw [if_pos c2] at h ⊢
            cases hcr4 with
            | nil => exact Option.noConfusion h
            | und d hcr5 => exact Option.noConfusion h
            | keep d hcr5 =>
              rename_i s5 t5
              have hred : (if '1' ≤ d ∧ d ≤ '9' then
                  (if lookNoDot t5 = true then some t5 else none) else none) = some r := h
              show ∃ rs, (if '1' ≤ d ∧ d ≤ '9' then
                  (if lookNoDot s5 = true then some s5 else none) else none) = some rs
              by_cases hd : ('1' ≤ d ∧ d ≤ '9')
              · rw [if_pos hd] at hred
                by_cases hl : lookNoDot t5 = true
                · exact ⟨s5, by rw [if_pos hd, if_pos (cr_lookNoDot hcr5 hl)]⟩
                · rw [if_neg hl] at hred
                  exact Option.noConfusion hred
              · rw [if_neg hd] at hred
                exact Option.noConfusion hred
          · rw [if_neg c2] at h
            exact Option.noConfusion h

theorem fixL_cons_forbidden {c : Char} (h : forbiddenChar c = true) (cs : List Char) :
    fixFilenameL (c :: cs) = '_' :: fixTail cs := by
  rw [fixFilenameL, if_pos h]

theorem fixL_cons_res {c : Char} {cs r : List Char} (h1 : forbiddenChar c = false)
    (h2 : matchRes (c :: cs) = some r) :
    fixFilenameL (c :: cs) = '_' :: fixTail r := by
  rw [fixFilenameL, if_neg (by simp [h1]), h2]

theorem fixL_cons_space {c : Char} {cs : List Char} (h1 : forbiddenChar c = false)
    (h2 : matchRes (c :: cs) = none) (h3 : isSpaceU c = true) :
    fixFilenameL (c :: cs) = '_' :: fixTail cs := by
  rw [fixFilenameL, if_neg (by simp [h1]), h2, if_pos h3]

theorem fixL_cons_endish {c : Char} {cs : List Char} (h1 : forbiddenChar c = false)
    (h2 : matchRes (c :: cs) = none) (h3 : isSpaceU c = false)
    (h4 : ((isSpaceU c || c = '.') && endNL cs) = true) :
    fixFilenameL (c :: cs) = '_' :: fixTail cs := by
  rw [fixFilenameL, if_neg (by simp [h1]), h2, if_neg (by simp [h3]), if_pos h4]

theorem fixL_cons_keep {c : Char} {cs : List Char} (h1 : forbiddenChar c = false)
    (h2 : matchRes (c :: cs) = none) (h3 : isSpaceU c = false)
    (h4 : ((isSpaceU c || c = '.') && endNL cs) = false) :
    fixFilenameL (c :: cs) = c :: fixTail cs := by
  rw [fixFilenameL, if_neg (by simp [h1]), h2, if_neg (by simp [h3]), if_neg (by simp [h4])]

theorem fixL_underscore (t : List Char) : fixFilenameL ('_' :: fixTail t) = '_' :: fixTail t := by
  rw [fixL_cons_keep (by decide) (matchRes_underscore _) (by decide) ?h4, fixTail_idem]
  case h4 =>
    rw [show ((isSpaceU '_' || decide ('_' = '.')) : Bool) = false from by decide]
    exact Bool.false_and _

theorem fixL_idem : ∀ l : List Char, fixFilenameL (fixFilenameL l) = fixFilenameL l := by
  intro l
  cases l with
  | nil => rfl
  | cons c cs =>
    cases h1 : forbiddenChar c with
    | true => rw [fixL_cons_forbidden h1, fixL_underscore]
    | false =>
      cases h2 : matchRes (c :: cs) with
      | some r => rw [fixL_cons_res h1 h2, fixL_underscore]
      | none =>
        cases h3 : isSpaceU c with
        | true => rw [fixL_cons_space h1 h2 h3, fixL_underscore]
        | false =>
          cases h4 : ((isSpaceU c || c = '.') && endNL cs) with
          | true => rw [fixL_cons_endish h1 h2 h3 h4, fixL_underscore]
          | false =>
            rw [fixL_cons_keep h1 h2 h3 h4]
            have h2i : matchRes (c :: fixTail cs) = none := by
              cases e : matchRes (c :: fixTail cs) with
              | none => rfl
              | some r =>
                obtain ⟨rs, hrs⟩ := cr_matchRes (CR.keep c (cr_fixTail cs)) e
                rw [h2] at hrs
                exact Option.noConfusion hrs
            have h4i : ((isSpaceU c || c = '.') && endNL (fixTail cs)) = false := by
              cases he : endNL (fixTail cs) with
              | false => rw [Bool.and_false]
              | true =>
                have hcs := endNL_fixTail he
                subst hcs
                exact h4
            rw [fixL_cons_keep h1 h2i h3 h4i, fixTail_idem]

/-- C3: `fix_filename` is idempotent on every input: sanitizing twice yields
the same result as sanitizing once.  Replacements only produce `_`, which no
rule matches except at the string end — and there the first pass has already
replaced the offending character — and a reserved-name or boundary match that
survives pass one is impossible since pass one keeps exactly the characters no
rule matched. -/
theorem claim_C3_idempotent (s : String) : fix_filename (fix_filename s) = fix_filename s := by
  show String.mk (fixFilenameL (fixFilenameL s.data)) = String.mk (fixFilenameL s.data)
  rw [fixL_idem]

theorem space_toUpper {c : Char} (h : isSpaceU c = true) :
    c.toUpper = c ∧ c ≠ 'A' ∧ c ≠ 'C' ∧ c ≠ 'N' ∧ c ≠ 'P' ∧ c ≠ 'L' := by
  simp only [isSpaceU, Bool.or_eq_true, Bool.and_eq_true, decide_eq_true_eq] at h
  repeat' rcases h with h | h
  all_goals try decide
  have hlo2 : (0x2000 : Nat) ≤ c.toNat := h.1
  have hup : c.toUpper = c := by
    simp only [Char.toUpper]
    rw [if_neg (by omega)]
  refine ⟨hup, ?_, ?_, ?_, ?_, ?_⟩ <;> (rintro rfl; exact absurd hlo2 (by decide))

theorem matchRes_space {c : Char} (h : isSpaceU c = true) (cs : List Char) :
    matchRes (c :: cs) = none := by
  obtain ⟨hup, hA, hC, hN, hP, hL⟩ := space_toUpper h
  match cs with
  | [] => rfl
  | x :: [] => rfl
  | x :: y :: w =>
    have c1 : ¬((c.toUpper = 'A' ∧ x.toUpper = 'U' ∧ y.toUpper = 'X') ∨
        (c.toUpper = 'C' ∧ x.toUpper = 'O' ∧ y.toUpper = 'N') ∨
        (c.toUpper = 'N' ∧ x.toUpper = 'U' ∧ y.toUpper = 'L') ∨
        (c.toUpper = 'P' ∧ x.toUpper = 'R' ∧ y.toUpper = 'N')) := by
      rw [hup]
      rintro (⟨h1, _⟩ | ⟨h1, _⟩ | ⟨h1, _⟩ | ⟨h1, _⟩)
      · exact hA h1
      · exact hC h1
      · exact hN h1
      · exact hP h1
    have c2 : ¬((c.toUpper = 'C' ∧ x.toUpper = 'O' ∧ y.toUpper = 'M') ∨
        (c.toUpper = 'L' ∧ x.toUpper = 'P' ∧ y.toUpper = 'T')) := by
      rw [hup]
      rintro (⟨h1, _⟩ | ⟨h1, _⟩)
      · exact hC h1
      · exact hL h1
    simp only [matchRes]
    rw [if_neg c1, if_neg c2]

/-- C4 counterexample: the leading run of two spaces is not collapsed — only
its first character becomes `_` — and the trailing run of two periods is not
collapsed — only its last character becomes `_`. -/
theorem claim_C4_cex :
    fix_filename ("  a") = "_ a" ∧ fix_filename ("  a") ≠ "_a" ∧
    fix_filename ("a..") = "a._" ∧ fix_filename ("a..") ≠ "a_" := by decide

/-- C4 (amended): the boundary rules `^\s` and `[\s.]$` each match a single
character, not a run: a leading whitespace character is replaced by `_` with
the rest scanned normally; an interior whitespace character that is not in the
`$` position (and not a control character) is kept unchanged; a final
whitespace-or-period character is replaced by `_`.  So `"  a"` becomes
`"_ a"`, not `"_a"`, and `"a  "` becomes `"a _"`, not `"a_"`. -/
theorem claim_C4_boundary_single_char :
    (∀ (c : Char) (cs : List Char), isSpaceU c = true →
        fixFilenameL (c :: cs) = '_' :: fixTail cs) ∧
    (∀ (c : Char) (cs : List Char), isSpaceU c = true → forbiddenChar c = false →
        endNL cs = false → fixTail (c :: cs) = c :: fixTail cs) ∧
    (∀ c : Char, forbiddenChar c = false → (isSpaceU c || c = '.') = true →
        fixTail (c :: []) = '_' :: []) ∧
    fix_filename ("  a") = "_ a" ∧ fix_filename ("a  ") = "a _" := by
  refine ⟨?_, ?_, ?_, by decide, by decide⟩
  · intro c cs hsp
    cases h1 : forbiddenChar c with
    | true => exact fixL_cons_forbidden h1 cs
    | false => exact fixL_cons_space h1 (matchRes_space hsp cs) hsp
  · intro c cs hsp h1 he
    exact fixTail_cons_keep h1 (by rw [he]; exact Bool.and_false _)
  · intro c h1 hd
    refine fixTail_cons_endish h1 ?_
    rw [show endNL ([] : List Char) = true from rfl, Bool.and_true]
    exact hd

/-- Witness for C4: a space before `x` is replaced at position 0 but kept in
the interior, and a final period is replaced. -/
theorem claim_C4_witness :
    fixFilenameL (' ' :: ('x' :: [])) = '_' :: fixTail ('x' :: []) ∧
    fixTail (' ' :: ('x' :: [])) = ' ' :: fixTail ('x' :: []) ∧
    fixTail ('.' :: []) = '_' :: [] :=
  ⟨claim_C4_boundary_single_char.1 ' ' ('x' :: []) (by decide),
   claim_C4_boundary_single_char.2.1 ' ' ('x' :: []) (by decide) (by decide) (by decide),
   claim_C4_boundary_single_char.2.2.1 '.' (by decide) (by decide)⟩
